import Mathlib

/-
Verification development for medImageUtils.py (medical image tools).

The file shallowly embeds the two operations of the tool:
  - `resize_image`: new-spacing computation, metadata sidecar, and the
    output-format choice made from the file name;
  - `extract_2d_slices`: the per-view slice windows, default center,
    slice naming, and the min-max normalization to 8-bit.

Python machine floats are modelled as rationals (ℚ), Python ints as ℤ/ℕ,
numpy arrays as nested lists, and Python floor division `//` as `Int.fdiv`.
-/

namespace MedImageUtils

/-- Spacing computation of `resize_image` (medImageUtils.py lines 24-28):
`new_spacing[i] = original_spacing[i] * (original_size[i] / new_size[i])`
for i = 0,1, and for i = 2 only when `len(new_size) > 2`, else `1.0`.
Out-of-range list reads are modelled with `getD` (the claims considered
always carry length hypotheses that keep reads in range). -/
def new_spacing (original_spacing : List ℚ) (original_size : List ℕ)
    (new_size : List ℕ) : List ℚ :=
  [original_spacing.getD 0 0 * ((original_size.getD 0 0 : ℚ) / (new_size.getD 0 0 : ℚ)),
   original_spacing.getD 1 0 * ((original_size.getD 1 0 : ℚ) / (new_size.getD 1 0 : ℚ)),
   if 2 < new_size.length then
     original_spacing.getD 2 0 * ((original_size.getD 2 0 : ℚ) / (new_size.getD 2 0 : ℚ))
   else 1]

/-- Geometry of a SimpleITK image as read by `resize_image`: size,
spacing, direction (flattened matrix) and origin. -/
structure MedImage where
  size : List ℕ
  spacing : List ℚ
  direction : List ℚ
  origin : List ℚ

/-- Metadata sidecar built by `resize_image` (lines 44-49): a record with
the four keys `original_size`, `original_spacing`, `original_direction`,
`original_origin`, taken from the source image before resampling.  JSON
objects are modelled as association lists; the integer sizes become JSON
numbers, modelled as ℚ. -/
def resize_metadata (image : MedImage) : List (String × List ℚ) :=
  [("original_size", image.size.map (fun k : ℕ => (k : ℚ))),
   ("original_spacing", image.spacing),
   ("original_direction", image.direction),
   ("original_origin", image.origin)]

/-- Python `str.rfind` restricted to a single character: index of the last
occurrence of `c` in the list, `-1` when absent. -/
def pyRfind (c : Char) : List Char → ℤ
  | [] => -1
  | x :: xs =>
    if 0 ≤ pyRfind c xs then 1 + pyRfind c xs
    else if x = c then 0 else -1

/-- CPython `posixpath.splitext`: let `si` be the index of the last `/` and
`di` the index of the last `.`; when `si < di` and some character strictly
between `si` and `di` differs from `.` (so the extension is not just the
leading dots of a basename), split at `di`; otherwise the extension is
empty. -/
def splitext (p : List Char) : List Char × List Char :=
  let si := pyRfind '/' p
  let di := pyRfind '.' p
  if si < di ∧ ((p.drop (si + 1).toNat).take (di - si - 1).toNat).any (fun ch => ch != '.') = true then
    (p.take di.toNat, p.drop di.toNat)
  else (p, [])

/-- Default output format of `resize_image` (line 53):
`os.path.splitext(image_path)[1][1:]`, i.e. the extension computed by
`splitext` with its leading dot removed. -/
def default_output_format (image_path : List Char) : List Char :=
  ((splitext image_path).2).drop 1

/-- Output-format choice of `resize_image` (lines 52-53): the explicit
`output_format` when given, else `default_output_format`. -/
def output_format_choice (output_format : Option (List Char)) (image_path : List Char) :
    List Char :=
  output_format.getD (default_output_format image_path)

/-- Modelled from the spec claim's words only (not from the source), for
comparison against `default_output_format`: the part of the filename after
the FIRST dot. -/
def after_first_dot : List Char → List Char
  | [] => []
  | x :: xs => if x = '.' then xs else after_first_dot xs

/-- A 2D plane of voxel intensities (one extracted slice before
normalization). -/
abbrev Slice2D := List (List ℚ)

/-- A numpy 3D array as produced by `sitk.GetArrayFromImage`, modelled as a
nested (rectangular) list. -/
abbrev Arr3D := List Slice2D

/-- Integer interval `[a, b)` as a list, the model of Python
`range(a, b)` over ints. -/
def intRange (a b : ℤ) : List ℤ :=
  (List.range (b - a).toNat).map (fun k : ℕ => a + (k : ℤ))

/-- Window start of `extract_2d_slices` (lines 82/88/94):
`max(0, center - n//2)` with Python floor division. -/
def sliceStart (center n : ℤ) : ℤ :=
  max 0 (center - Int.fdiv n 2)

/-- Exclusive window end of `extract_2d_slices` (lines 83/89/95):
`min(extent, center + n//2 + 1)`. -/
def sliceEnd (extent center n : ℤ) : ℤ :=
  min extent (center + Int.fdiv n 2 + 1)

/-- The slice indices one view iterates over:
`range(max(0, center - n//2), min(extent, center + n//2 + 1))`. -/
def sliceIndices (extent center n : ℤ) : List ℤ :=
  intRange (sliceStart center n) (sliceEnd extent center n)

/-- First axis extent `array.shape[0]`. -/
def shape0 (a : Arr3D) : ℕ := a.length

/-- Second axis extent `array.shape[1]`. -/
def shape1 (a : Arr3D) : ℕ := (a.getD 0 []).length

/-- Third axis extent `array.shape[2]`. -/
def shape2 (a : Arr3D) : ℕ := ((a.getD 0 []).getD 0 []).length

/-- Default center of `extract_2d_slices` (line 73):
`[s // 2 for s in array.shape]`. -/
def default_location (a : Arr3D) : ℤ × ℤ × ℤ :=
  ((shape0 a / 2 : ℕ), (shape1 a / 2 : ℕ), (shape2 a / 2 : ℕ))

/-- The plane `array[i, :, :]` (axial view). -/
def axialSlice (a : Arr3D) (i : ℤ) : Slice2D :=
  a.getD i.toNat []

/-- The plane `array[:, i, :]` (coronal view). -/
def coronalSlice (a : Arr3D) (i : ℤ) : Slice2D :=
  a.map (fun plane => plane.getD i.toNat [])

/-- The plane `array[:, :, i]` (sagittal view). -/
def sagittalSlice (a : Arr3D) (i : ℤ) : Slice2D :=
  a.map (fun plane => plane.map (fun row => row.getD i.toNat 0))

/-- Slice collection loop of `extract_2d_slices` (lines 75-97): for each of
the three views in order axial, coronal, sagittal, the indices of the
clipped window around `location[0]`, `location[1]`, `location[2]`
respectively, each slice paired with its name `f"{view}_{i}"`; when no
location is given the default center is used. -/
def extract_2d_slices (a : Arr3D) (location : Option (ℤ × ℤ × ℤ)) (n : ℤ) :
    List (String × Slice2D) :=
  let loc := location.getD (default_location a)
  ((sliceIndices (shape0 a) loc.1 n).map
      (fun i => ("axial_" ++ toString i, axialSlice a i)))
  ++ ((sliceIndices (shape1 a) loc.2.1 n).map
      (fun i => ("coronal_" ++ toString i, coronalSlice a i)))
  ++ ((sliceIndices (shape2 a) loc.2.2 n).map
      (fun i => ("sagittal_" ++ toString i, sagittalSlice a i)))

/-- Names of the extracted slices, in emission order. -/
def extract_names (a : Arr3D) (location : Option (ℤ × ℤ × ℤ)) (n : ℤ) : List String :=
  (extract_2d_slices a location n).map Prod.fst

/-- Output file name of one slice (line 106):
`f"{base_name}_{name}.png"` (the directory prefix is left abstract). -/
def output_png_name (base_name name : String) : String :=
  base_name ++ "_" ++ name ++ ".png"

/-- The list of output file names `extract_2d_slices` writes (lines 99-108). -/
def extract_output_files (base_name : String) (a : Arr3D)
    (location : Option (ℤ × ℤ × ℤ)) (n : ℤ) : List String :=
  (extract_2d_slices a location n).map (fun s => output_png_name base_name s.1)

/-- Flattened values of a 2D slice. -/
def flat2 (s : Slice2D) : List ℚ := s.flatMap id

/-- Minimum of a value list (0 for the empty list, which a rectangular
nonempty slice never produces). -/
def listMin : List ℚ → ℚ
  | [] => 0
  | x :: xs => xs.foldl min x

/-- Maximum of a value list (0 for the empty list). -/
def listMax : List ℚ → ℚ
  | [] => 0
  | x :: xs => xs.foldl max x

/-- OpenCV scale factor for `cv2.normalize(..., 0, 255, NORM_MINMAX)`:
`(beta - alpha) / (smax - smin)` when the value range is positive, else 0
(OpenCV uses scale 0 when `smax - smin` is not above `DBL_EPSILON`). -/
def cv_scale (s : Slice2D) : ℚ :=
  if listMin (flat2 s) < listMax (flat2 s) then
    255 / (listMax (flat2 s) - listMin (flat2 s))
  else 0

/-- OpenCV shift for NORM_MINMAX with `alpha = 0`: `alpha - smin * scale`. -/
def cv_shift (s : Slice2D) : ℚ :=
  0 - listMin (flat2 s) * cv_scale s

/-- Round to nearest integer (half up): `⌊q + 1/2⌋` written on the
numerator/denominator representation, modelling OpenCV's rounding of the
scaled double before the unsigned-8-bit cast. -/
def cvRound (q : ℚ) : ℤ :=
  (2 * q.num + q.den) / (2 * (q.den : ℤ))

/-- OpenCV `saturate_cast<uchar>`: clamp an integer into `[0, 255]`. -/
def saturate_8u (z : ℤ) : ℤ :=
  max 0 (min 255 z)

/-- Model of line 105,
`cv2.normalize(slice_data, None, 0, 255, cv2.NORM_MINMAX, dtype=cv2.CV_8U)`:
every value is mapped through `x * scale + shift`, rounded, and
saturate-cast to unsigned 8-bit. -/
def cv2_normalize_minmax_8u (s : Slice2D) : List (List ℤ) :=
  s.map (fun row => row.map (fun x => saturate_8u (cvRound (x * cv_scale s + cv_shift s))))

/-- A 10x10x10 all-zero volume, used as a concrete test array. -/
def vol10 : Arr3D :=
  List.replicate 10 (List.replicate 10 (List.replicate 10 (0 : ℚ)))

theorem fdiv_two_eq (n : ℤ) : Int.fdiv n 2 = n / 2 :=
  Int.fdiv_eq_ediv n (by norm_num)

theorem mem_intRange (a b i : ℤ) : i ∈ intRange a b ↔ a ≤ i ∧ i < b := by
  unfold intRange
  rw [List.mem_map]
  constructor
  · rintro ⟨m, hm, rfl⟩
    rw [List.mem_range] at hm
    omega
  · rintro ⟨h1, h2⟩
    refine ⟨(i - a).toNat, ?_, ?_⟩
    · rw [List.mem_range]
      omega
    · omega

theorem length_intRange (a b : ℤ) : (intRange a b).length = (b - a).toNat := by
  simp [intRange]

theorem mem_sliceIndices (extent center n i : ℤ) :
    i ∈ sliceIndices extent center n ↔
      center - n / 2 ≤ i ∧ i ≤ center + n / 2 ∧ 0 ≤ i ∧ i < extent := by
  rw [sliceIndices, mem_intRange, sliceStart, sliceEnd, fdiv_two_eq]
  omega

theorem length_sliceIndices (extent center n : ℤ) :
    (sliceIndices extent center n).length =
      (min extent (center + n / 2 + 1) - max 0 (center - n / 2)).toNat := by
  rw [sliceIndices, length_intRange, sliceStart, sliceEnd, fdiv_two_eq]

theorem sliceIndices_eq_nil_iff (extent center n : ℤ) :
    sliceIndices extent center n = [] ↔
      min extent (center + n / 2 + 1) ≤ max 0 (center - n / 2) := by
  rw [← List.length_eq_zero, length_sliceIndices]
  omega

theorem foldl_min_le_init (l : List ℚ) (a : ℚ) : l.foldl min a ≤ a := by
  induction l generalizing a with
  | nil => exact le_refl a
  | cons x xs ih => exact le_trans (ih (min a x)) (min_le_left a x)

theorem foldl_min_le_mem (l : List ℚ) (a x : ℚ) (hx : x ∈ l) : l.foldl min a ≤ x := by
  induction l generalizing a with
  | nil => cases hx
  | cons y ys ih =>
    rcases List.mem_cons.1 hx with h | h
    · subst h
      exact le_trans (foldl_min_le_init ys (min a x)) (min_le_right a x)
    · exact ih (min a y) h

theorem le_foldl_max_init (l : List ℚ) (a : ℚ) : a ≤ l.foldl max a := by
  induction l generalizing a with
  | nil => exact le_refl a
  | cons x xs ih => exact le_trans (le_max_left a x) (ih (max a x))

theorem le_foldl_max_mem (l : List ℚ) (a x : ℚ) (hx : x ∈ l) : x ≤ l.foldl max a := by
  induction l generalizing a with
  | nil => cases hx
  | cons y ys ih =>
    rcases List.mem_cons.1 hx with h | h
    · subst h
      exact le_trans (le_max_right a x) (le_foldl_max_init ys (max a x))
    · exact ih (max a y) h

theorem listMin_le (l : List ℚ) (x : ℚ) (hx : x ∈ l) : listMin l ≤ x := by
  cases l with
  | nil => cases hx
  | cons y ys =>
    rcases List.mem_cons.1 hx with h | h
    · subst h
      exact foldl_min_le_init ys x
    · exact foldl_min_le_mem ys y x h

theorem le_listMax (l : List ℚ) (x : ℚ) (hx : x ∈ l) : x ≤ listMax l := by
  cases l with
  | nil => cases hx
  | cons y ys =>
    rcases List.mem_cons.1 hx with h | h
    · subst h
      exact le_foldl_max_init ys x
    · exact le_foldl_max_mem ys y x h

theorem getD_map_of_lt {α β : Type} (f : α → β) (l : List α) (i : ℕ) (d : α) (e : β)
    (h : i < l.length) : (l.map f).getD i e = f (l.getD i d) := by
  simp [List.getD, List.getElem?_map, List.getElem?_eq_getElem, h]

theorem mem_flat2 (s : Slice2D) (row : List ℚ) (x : ℚ) (hr : row ∈ s) (hx : x ∈ row) :
    x ∈ flat2 s :=
  List.mem_flatMap.2 ⟨row, hr, hx⟩

theorem getD_mem_of_lt {α : Type} (l : List α) (i : ℕ) (d : α) (h : i < l.length) :
    l.getD i d ∈ l := by
  rw [List.getD_eq_getElem l d h]
  exact List.getElem_mem h

theorem pyRfind_eq_neg_one (c : Char) (l : List Char) (h : c ∉ l) : pyRfind c l = -1 := by
  induction l with
  | nil => rfl
  | cons x xs ih =>
    have hx : ¬x = c := fun hxc => h (hxc ▸ List.mem_cons_self x xs)
    have hxs : c ∉ xs := fun hc => h (List.mem_cons_of_mem x hc)
    rw [pyRfind, ih hxs]
    norm_num [hx]

theorem pyRfind_append_last (c : Char) (a b : List Char) (hb : c ∉ b) :
    pyRfind c (a ++ c :: b) = (a.length : ℤ) := by
  induction a with
  | nil =>
    rw [List.nil_append, pyRfind, pyRfind_eq_neg_one c b hb]
    norm_num
  | cons x xs ih =>
    rw [List.cons_append, pyRfind, ih]
    have h0 : (0 : ℤ) ≤ (xs.length : ℤ) := Int.natCast_nonneg _
    rw [if_pos h0]
    rw [List.length_cons]
    omega

/-- C5: for every view the extracted slice indices are exactly the integers
of the inclusive window `[center - N//2, center + N//2]` clipped to
`[0, extent - 1]`; each slice is named `<view>_<index>`; for a center at
index 0 with N = 3 the window contains index 0 and no negative index; and a
single-voxel axis with the default center `1 // 2 = 0` yields exactly one
slice. -/
theorem slice_window_exact_characterization :
    (∀ extent center n i : ℤ,
        i ∈ sliceIndices extent center n ↔
          center - Int.fdiv n 2 ≤ i ∧ i ≤ center + Int.fdiv n 2 ∧ 0 ≤ i ∧ i ≤ extent - 1)
    ∧ (∀ (a : Arr3D) (c0 c1 c2 n : ℤ),
        extract_names a (some (c0, c1, c2)) n =
          (sliceIndices (shape0 a) c0 n).map (fun i => "axial_" ++ toString i)
          ++ (sliceIndices (shape1 a) c1 n).map (fun i => "coronal_" ++ toString i)
          ++ (sliceIndices (shape2 a) c2 n).map (fun i => "sagittal_" ++ toString i))
    ∧ (∀ extent : ℤ, 1 ≤ extent →
        (0 : ℤ) ∈ sliceIndices extent 0 3 ∧ ∀ i ∈ sliceIndices extent 0 3, 0 ≤ i)
    ∧ (∀ n : ℤ, 0 ≤ n → sliceIndices 1 (((1 : ℕ) / 2 : ℕ) : ℤ) n = [0]) := by
  refine ⟨?_, ?_, ?_, ?_⟩
  · intro extent center n i
    rw [mem_sliceIndices, fdiv_two_eq]
    omega
  · intro a c0 c1 c2 n
    simp only [extract_names, extract_2d_slices, Option.getD_some, List.map_append,
      List.map_map]
    rfl
  · intro extent hext
    constructor
    · rw [mem_sliceIndices]
      omega
    · intro i hi
      rw [mem_sliceIndices] at hi
      omega
  · intro n hn
    have hf : 0 ≤ Int.fdiv n 2 := Int.fdiv_nonneg hn (by norm_num)
    have h1 : (((1 : ℕ) / 2 : ℕ) : ℤ) = 0 := by norm_num
    rw [h1]
    have h2 : sliceIndices 1 0 n = intRange 0 1 := by
      rw [sliceIndices, sliceStart, sliceEnd]
      congr 1
      · omega
      · omega
    rw [h2]
    decide

/-- Witness for C5 at extent 10, center 3, N = 2; extent 5 with center 0 and
N = 3; and the single-voxel axis with N = 1. -/
theorem slice_window_exact_characterization_witness :
    ((2 : ℤ) ∈ sliceIndices 10 3 2 ↔
        (3 : ℤ) - Int.fdiv 2 2 ≤ 2 ∧ (2 : ℤ) ≤ 3 + Int.fdiv 2 2 ∧ (0 : ℤ) ≤ 2 ∧ (2 : ℤ) ≤ 10 - 1)
    ∧ (0 : ℤ) ∈ sliceIndices 5 0 3
    ∧ sliceIndices 1 (((1 : ℕ) / 2 : ℕ) : ℤ) 1 = [0] :=
  ⟨slice_window_exact_characterization.1 10 3 2 2,
   (slice_window_exact_characterization.2.2.1 5 (by decide)).1,
   slice_window_exact_characterization.2.2.2 1 (by decide)⟩

/-- C10: every index a view iterates over lies in `[0, extent)`, so the
array indexing `array[i, :, :]` / `array[:, i, :]` / `array[:, :, i]` never
goes out of bounds; and an empty clipped window contributes zero slices. -/
theorem slice_indices_always_in_bounds :
    (∀ extent center n : ℤ, ∀ i ∈ sliceIndices extent center n, 0 ≤ i ∧ i < extent)
    ∧ (∀ extent center n : ℤ,
        sliceEnd extent center n ≤ sliceStart center n →
          sliceIndices extent center n = []) := by
  constructor
  · intro extent center n i hi
    rw [mem_sliceIndices] at hi
    omega
  · intro extent center n h
    rw [sliceEnd, sliceStart, fdiv_two_eq] at h
    rw [sliceIndices_eq_nil_iff]
    omega

/-- Witness for C10 at extent 10, center 5, N = 1, index 5, and the empty
window at center 1000. -/
theorem slice_indices_always_in_bounds_witness :
    ((0 : ℤ) ≤ 5 ∧ (5 : ℤ) < 10) ∧ sliceIndices 10 1000 1 = [] :=
  ⟨slice_indices_always_in_bounds.1 10 5 1 5 (by decide),
   slice_indices_always_in_bounds.2 10 1000 1 (by decide)⟩

/-- C3 counterexample: for the even slice count N = 2 at center 5 in a
100-long axis the window is `[4, 5, 6]` — one index on each side of the
center, NOT more indices on one side as the claim states. -/
theorem even_n_window_symmetric_counterexample :
    sliceIndices 100 5 2 = [4, 5, 6]
    ∧ (sliceIndices 100 5 2).countP (fun i => decide (i < 5)) =
      (sliceIndices 100 5 2).countP (fun i => decide (5 < i)) := by
  decide

/-- C3 amended: for every slice count N whose window is not clipped, the
window is symmetric — index `center - d` is in the window exactly when
`center + d` is — with `N // 2` indices on each side, total
`2 * (N // 2) + 1`; for even N that is N + 1 indices, not N. -/
theorem even_n_window_symmetric_amended :
    ∀ extent center n : ℤ,
      0 ≤ center - Int.fdiv n 2 → center + Int.fdiv n 2 + 1 ≤ extent →
      (∀ d : ℤ,
          center - d ∈ sliceIndices extent center n ↔
            center + d ∈ sliceIndices extent center n)
      ∧ (sliceIndices extent center n).length = (2 * Int.fdiv n 2 + 1).toNat
      ∧ (0 ≤ n → n % 2 = 0 → (sliceIndices extent center n).length = n.toNat + 1) := by
  intro extent center n h1 h2
  rw [fdiv_two_eq] at h1 h2
  refine ⟨?_, ?_, ?_⟩
  · intro d
    rw [mem_sliceIndices, mem_sliceIndices]
    omega
  · rw [length_sliceIndices, fdiv_two_eq]
    omega
  · intro hn he
    rw [length_sliceIndices]
    omega

/-- Witness for C3 amended at extent 100, center 5, N = 2 (with d = 1). -/
theorem even_n_window_symmetric_amended_witness :
    ((5 - 1 : ℤ) ∈ sliceIndices 100 5 2 ↔ (5 + 1 : ℤ) ∈ sliceIndices 100 5 2)
    ∧ (sliceIndices 100 5 2).length = (2 * Int.fdiv 2 2 + 1).toNat
    ∧ (sliceIndices 100 5 2).length = (2 : ℤ).toNat + 1 := by
  have h := even_n_window_symmetric_amended 100 5 2 (by decide) (by decide)
  exact ⟨h.1 1, h.2.1, h.2.2 (by decide) (by decide)⟩

/-- C2 counterexample: on a 10x10x10 volume with center (5,5,5) and N = 2,
`extract_2d_slices` produces 9 slices — more than 3 x N = 6 — and the axial
view alone produces 3 > 2 slices, with no boundary clipping involved. -/
theorem slice_count_exceeds_3n_counterexample :
    (extract_2d_slices vol10 (some (5, 5, 5)) 2).length = 9
    ∧ 3 * 2 < 9
    ∧ (sliceIndices (shape0 vol10) 5 2).length = 3
    ∧ 2 < 3 := by
  decide

/-- C2 amended: the slice extraction produces at most
`3 * (2 * (N // 2) + 1)` slices in total and at most `2 * (N // 2) + 1` per
view (that is N per view for odd N, but N + 1 for even N), with equality
per view when the window is not clipped at a volume boundary; in particular
for N = 3 each view yields at most 3 slices. -/
theorem slice_count_bound_amended :
    (∀ (a : Arr3D) (location : Option (ℤ × ℤ × ℤ)) (n : ℤ),
        (extract_2d_slices a location n).length ≤ 3 * (2 * Int.fdiv n 2 + 1).toNat)
    ∧ (∀ extent center n : ℤ,
        (sliceIndices extent center n).length ≤ (2 * Int.fdiv n 2 + 1).toNat)
    ∧ (∀ extent center : ℤ, (sliceIndices extent center 3).length ≤ 3)
    ∧ (∀ extent center n : ℤ,
        0 ≤ center - Int.fdiv n 2 → center + Int.fdiv n 2 + 1 ≤ extent →
        (sliceIndices extent center n).length = (2 * Int.fdiv n 2 + 1).toNat) := by
  have hper : ∀ extent center n : ℤ,
      (sliceIndices extent center n).length ≤ (2 * Int.fdiv n 2 + 1).toNat := by
    intro extent center n
    rw [length_sliceIndices, fdiv_two_eq]
    omega
  refine ⟨?_, hper, ?_, ?_⟩
  · intro a location n
    simp only [extract_2d_slices, List.length_append, List.length_map]
    have h1 := hper (shape0 a) ((location.getD (default_location a)).1) n
    have h2 := hper (shape1 a) ((location.getD (default_location a)).2.1) n
    have h3 := hper (shape2 a) ((location.getD (default_location a)).2.2) n
    omega
  · intro extent center
    have h := hper extent center 3
    have h3 : (2 * Int.fdiv 3 2 + 1).toNat = 3 := by decide
    omega
  · intro extent center n h1 h2
    rw [fdiv_two_eq] at h1 h2
    rw [length_sliceIndices, fdiv_two_eq]
    omega

/-- Witness for C2 amended on the 10x10x10 volume with N = 1, and the
unclipped window at extent 10, center 5, N = 2. -/
theorem slice_count_bound_amended_witness :
    (extract_2d_slices vol10 none 1).length ≤ 3 * (2 * Int.fdiv 1 2 + 1).toNat
    ∧ (sliceIndices 10 5 2).length = (2 * Int.fdiv 2 2 + 1).toNat :=
  ⟨slice_count_bound_amended.1 vol10 none 1,
   slice_count_bound_amended.2.2.2 10 5 2 (by decide) (by decide)⟩

/-- C4 counterexample: on a 10x10x10 volume with N = 1 and the out-of-range
center (1000, 5, 5), the axial view emits NO slices at all (no boundary
slice `axial_9`): only the coronal and sagittal views produce output. -/
theorem out_of_range_center_counterexample :
    extract_names vol10 (some (1000, 5, 5)) 1 = ["coronal_5", "sagittal_5"]
    ∧ sliceIndices (shape0 vol10) 1000 1 = [] := by
  decide

/-- C4 amended: an out-of-range center never raises; the window is clipped,
and the view still produces the boundary slice while the window reaches the
volume (center within N // 2 of the boundary), but once the center is
farther out the clipped window is empty and the view silently emits no
slices. -/
theorem out_of_range_center_amended :
    ∀ extent center n : ℤ, 0 < extent →
      (extent ≤ center →
        (center - Int.fdiv n 2 ≤ extent - 1 →
          (extent - 1) ∈ sliceIndices extent center n
          ∧ sliceIndices extent center n ≠ [])
        ∧ (extent - 1 < center - Int.fdiv n 2 → sliceIndices extent center n = []))
      ∧ (center < 0 →
        (0 ≤ center + Int.fdiv n 2 →
          (0 : ℤ) ∈ sliceIndices extent center n
          ∧ sliceIndices extent center n ≠ [])
        ∧ (center + Int.fdiv n 2 < 0 → sliceIndices extent center n = [])) := by
  intro extent center n hext
  constructor
  · intro hc
    constructor
    · intro hreach
      rw [fdiv_two_eq] at hreach
      have hmem : (extent - 1) ∈ sliceIndices extent center n := by
        rw [mem_sliceIndices]
        omega
      exact ⟨hmem, List.ne_nil_of_mem hmem⟩
    · intro hfar
      rw [fdiv_two_eq] at hfar
      rw [sliceIndices_eq_nil_iff]
      omega
  · intro hc
    constructor
    · intro hreach
      rw [fdiv_two_eq] at hreach
      have hmem : (0 : ℤ) ∈ sliceIndices extent center n := by
        rw [mem_sliceIndices]
        omega
      exact ⟨hmem, List.ne_nil_of_mem hmem⟩
    · intro hfar
      rw [fdiv_two_eq] at hfar
      rw [sliceIndices_eq_nil_iff]
      omega

/-- Witness for C4 amended: extent 10 with center 12 and N = 6 still
reaches the boundary slice 9, while extent 10 with center 1000 and N = 1
emits nothing. -/
theorem out_of_range_center_amended_witness :
    ((10 - 1 : ℤ) ∈ sliceIndices 10 12 6 ∧ sliceIndices 10 12 6 ≠ [])
    ∧ sliceIndices 10 1000 1 = [] := by
  have h1 := out_of_range_center_amended 10 12 6 (by decide)
  have h2 := out_of_range_center_amended 10 1000 1 (by decide)
  exact ⟨(h1.1 (by decide)).1 (by decide), (h2.1 (by decide)).2 (by decide)⟩

/-- C1: for every axis present in the target size the new spacing is
`original_spacing[i] * (original_size[i] / new_size[i])`, the third spacing
is fixed at 1.0 when the target size has only 2 entries, the product
`new_spacing[i] * new_size[i]` equals `original_spacing[i] * original_size[i]`
on every such axis, and a (64,64,32) volume with spacing (1,1,2) resized to
[32,32,16] gets spacing (2,2,4). -/
theorem resize_spacing_preserves_physical_extent :
    (∀ (original_spacing : List ℚ) (original_size new_size : List ℕ),
        2 ≤ new_size.length → new_size.length ≤ 3 →
        (∀ i, i < new_size.length → new_size.getD i 0 ≠ 0) →
        (∀ i, i < new_size.length →
          (new_spacing original_spacing original_size new_size).getD i 0 =
            original_spacing.getD i 0 *
              ((original_size.getD i 0 : ℚ) / (new_size.getD i 0 : ℚ))
          ∧ (new_spacing original_spacing original_size new_size).getD i 0 *
              (new_size.getD i 0 : ℚ) =
            original_spacing.getD i 0 * (original_size.getD i 0 : ℚ))
        ∧ (new_size.length = 2 →
            (new_spacing original_spacing original_size new_size).getD 2 0 = 1))
    ∧ new_spacing [1, 1, 2] [64, 64, 32] [32, 32, 16] = [2, 2, 4] := by
  constructor
  · intro original_spacing original_size new_size hlen2 hlen3 hnz
    constructor
    · intro i hi
      have hiz : (new_size.getD i 0 : ℚ) ≠ 0 :=
        Nat.cast_ne_zero.2 (hnz i hi)
      have hi3 : i < 3 := lt_of_lt_of_le hi hlen3
      interval_cases i
      · refine ⟨rfl, ?_⟩
        show original_spacing.getD 0 0 *
            ((original_size.getD 0 0 : ℚ) / (new_size.getD 0 0 : ℚ)) *
            (new_size.getD 0 0 : ℚ) = _
        rw [mul_assoc, div_mul_cancel₀ _ hiz]
      · refine ⟨rfl, ?_⟩
        show original_spacing.getD 1 0 *
            ((original_size.getD 1 0 : ℚ) / (new_size.getD 1 0 : ℚ)) *
            (new_size.getD 1 0 : ℚ) = _
        rw [mul_assoc, div_mul_cancel₀ _ hiz]
      · have h23 : 2 < new_size.length := hi
        constructor
        · show (if 2 < new_size.length then
              original_spacing.getD 2 0 *
                ((original_size.getD 2 0 : ℚ) / (new_size.getD 2 0 : ℚ))
            else 1) = _
          rw [if_pos h23]
        · show (if 2 < new_size.length then
              original_spacing.getD 2 0 *
                ((original_size.getD 2 0 : ℚ) / (new_size.getD 2 0 : ℚ))
            else 1) * (new_size.getD 2 0 : ℚ) = _
          rw [if_pos h23]
          rw [mul_assoc, div_mul_cancel₀ _ hiz]
    · intro hlen
      show (if 2 < new_size.length then
          original_spacing.getD 2 0 *
            ((original_size.getD 2 0 : ℚ) / (new_size.getD 2 0 : ℚ))
        else 1) = 1
      rw [if_neg (by omega)]
  · norm_num [new_spacing]

/-- Witness for C1 on the example volume: third axis of the
(64,64,32)-to-[32,32,16] resize preserves the physical extent. -/
theorem resize_spacing_preserves_physical_extent_witness :
    (new_spacing [1, 1, 2] [64, 64, 32] [32, 32, 16]).getD 2 0 =
      ([1, 1, 2] : List ℚ).getD 2 0 *
        (((([64, 64, 32] : List ℕ)).getD 2 0 : ℚ) / ((([32, 32, 16] : List ℕ)).getD 2 0 : ℚ))
    ∧ (new_spacing [1, 1, 2] [64, 64, 32] [32, 32, 16]).getD 2 0 *
        ((([32, 32, 16] : List ℕ)).getD 2 0 : ℚ) =
      ([1, 1, 2] : List ℚ).getD 2 0 * ((([64, 64, 32] : List ℕ)).getD 2 0 : ℚ) :=
  ((resize_spacing_preserves_physical_extent.1 [1, 1, 2] [64, 64, 32] [32, 32, 16]
      (by decide) (by decide) (by decide)).1 2 (by decide))

/-- C6 counterexample: for the source name `foo.nii.gz`, the part of the
filename after the FIRST dot is `nii.gz`, while the code's derived format
(`os.path.splitext(...)[1][1:]`, a last-dot split) is `gz`; the two
disagree, so the format is not the part after the first dot. -/
theorem output_format_first_dot_counterexample :
    after_first_dot (String.toList "foo.nii.gz") = String.toList "nii.gz"
    ∧ default_output_format (String.toList "foo.nii.gz") = String.toList "gz"
    ∧ default_output_format (String.toList "foo.nii.gz") ≠
        after_first_dot (String.toList "foo.nii.gz") := by
  decide

/-- C6 amended: when no output format is given, the derived format is the
part of the filename after the LAST dot (for a basename that is not all
dots before it); in particular for `foo.nii.gz` the derived format is
`gz`. -/
theorem output_format_last_dot_amended :
    (∀ a b : List Char, '/' ∉ a → '/' ∉ b → '.' ∉ b → (∃ c ∈ a, c ≠ '.') →
        default_output_format (a ++ '.' :: b) = b)
    ∧ default_output_format (String.toList "foo.nii.gz") = String.toList "gz" := by
  constructor
  · intro a b ha hb hdotb hex
    have hsep : '/' ∉ a ++ '.' :: b := by
      intro h
      rcases List.mem_append.1 h with h | h
      · exact ha h
      · rcases List.mem_cons.1 h with h | h
        · exact absurd h (by decide)
        · exact hb h
    have hsi : pyRfind '/' (a ++ '.' :: b) = -1 := pyRfind_eq_neg_one _ _ hsep
    have hdi : pyRfind '.' (a ++ '.' :: b) = (a.length : ℤ) := pyRfind_append_last _ _ _ hdotb
    have hany : ((a ++ '.' :: b).drop ((-1 : ℤ) + 1).toNat).take
        (((a.length : ℤ) - (-1) - 1).toNat) = a := by
      have h0 : ((-1 : ℤ) + 1).toNat = 0 := by decide
      have h1 : ((a.length : ℤ) - (-1) - 1).toNat = a.length := by omega
      rw [h0, h1, List.drop_zero, List.take_left]
    have hcond : pyRfind '/' (a ++ '.' :: b) < pyRfind '.' (a ++ '.' :: b) ∧
        (((a ++ '.' :: b).drop (pyRfind '/' (a ++ '.' :: b) + 1).toNat).take
          (pyRfind '.' (a ++ '.' :: b) - pyRfind '/' (a ++ '.' :: b) - 1).toNat).any
          (fun ch => ch != '.') = true := by
      rw [hsi, hdi, hany]
      refine ⟨by omega, ?_⟩
      obtain ⟨c, hc, hcne⟩ := hex
      exact List.any_eq_true.2 ⟨c, hc, bne_iff_ne.2 hcne⟩
    rw [default_output_format, splitext, if_pos hcond, hdi]
    rw [Int.toNat_natCast, List.drop_left]
    rfl
  · decide

/-- Witness for C6 amended at the source name `foo.nii.gz`, split as
`foo.nii` ++ `.` ++ `gz`. -/
theorem output_format_last_dot_amended_witness :
    default_output_format (String.toList "foo.nii" ++ '.' :: String.toList "gz") =
      String.toList "gz" :=
  output_format_last_dot_amended.1 (String.toList "foo.nii") (String.toList "gz")
    (by decide) (by decide) (by decide) (by decide)

/-- C7: with no location supplied the center is the integer midpoint
`extent // 2` of each axis; for a 10x10x10 array with N = 1 the center is
(5,5,5) and exactly three files are produced, with name suffixes
`axial_5`, `coronal_5` and `sagittal_5`. -/
theorem default_center_is_midpoint :
    (∀ (a : Arr3D) (n : ℤ),
        extract_2d_slices a none n = extract_2d_slices a (some (default_location a)) n)
    ∧ default_location vol10 = (5, 5, 5)
    ∧ extract_names vol10 none 1 = ["axial_5", "coronal_5", "sagittal_5"]
    ∧ (∀ base_name : String,
        extract_output_files base_name vol10 none 1 =
          [base_name ++ "_axial_5.png", base_name ++ "_coronal_5.png",
           base_name ++ "_sagittal_5.png"]) := by
  refine ⟨fun a n => rfl, by decide, by decide, ?_⟩
  intro base_name
  have h1 : extract_output_files base_name vol10 none 1 =
      (extract_names vol10 none 1).map (output_png_name base_name) := by
    simp only [extract_output_files, extract_names, List.map_map]
    rfl
  rw [h1,
    show extract_names vol10 none 1 = ["axial_5", "coronal_5", "sagittal_5"] from by decide]
  simp only [List.map_cons, List.map_nil, output_png_name, String.append_assoc]
  rw [show ("_" ++ ("axial_5" ++ ".png") : String) = "_axial_5.png" from by decide,
    show ("_" ++ ("coronal_5" ++ ".png") : String) = "_coronal_5.png" from by decide,
    show ("_" ++ ("sagittal_5" ++ ".png") : String) = "_sagittal_5.png" from by decide]

/-- C8: the metadata sidecar has exactly the keys `original_size`,
`original_spacing`, `original_direction`, `original_origin`, in that order,
and the `original_size` value is the source image's size before
resampling. -/
theorem resize_metadata_keys_exact :
    ∀ image : MedImage,
      (resize_metadata image).map Prod.fst =
        ["original_size", "original_spacing", "original_direction", "original_origin"]
      ∧ (resize_metadata image).lookup "original_size" =
          some (image.size.map (fun k : ℕ => (k : ℚ))) :=
  fun _ => ⟨rfl, rfl⟩

/-- C9 counterexample: a constant slice (all voxels 7) has maximum 7, yet
NORM_MINMAX maps every voxel — the maximum included — to 0, not 255,
because OpenCV uses scale 0 when the intensity range is empty. -/
theorem constant_slice_normalizes_to_zero :
    listMax (flat2 [[(7 : ℚ), 7], [7, 7]]) = 7
    ∧ cv2_normalize_minmax_8u [[(7 : ℚ), 7], [7, 7]] = [[0, 0], [0, 0]]
    ∧ (0 : ℤ) ≠ 255 := by
  refine ⟨by norm_num [flat2, listMax], ?_, by decide⟩
  have hnot : ¬ listMin (flat2 [[(7 : ℚ), 7], [7, 7]]) <
      listMax (flat2 [[(7 : ℚ), 7], [7, 7]]) := by
    norm_num [flat2, listMin, listMax]
  have hscale : cv_scale [[(7 : ℚ), 7], [7, 7]] = 0 := by
    rw [cv_scale, if_neg hnot]
  have hshift : cv_shift [[(7 : ℚ), 7], [7, 7]] = 0 := by
    rw [cv_shift, hscale]
    ring
  rw [cv2_normalize_minmax_8u]
  simp only [hscale, hshift, List.map_cons, List.map_nil, mul_zero, add_zero]
  norm_num [cvRound, saturate_8u]

/-- C9 amended: every written pixel lies in [0, 255], and whenever the
slice is not constant (its min is strictly below its max) the scaled values
lie exactly in [0, 255] before quantization and every maximum-intensity
voxel maps exactly to 255; a constant slice instead maps entirely to 0. -/
theorem minmax_normalization_range_amended :
    ∀ s : Slice2D,
      (∀ row ∈ cv2_normalize_minmax_8u s, ∀ z ∈ row, 0 ≤ z ∧ z ≤ 255)
      ∧ (listMin (flat2 s) < listMax (flat2 s) →
          (∀ x ∈ flat2 s,
              0 ≤ x * cv_scale s + cv_shift s ∧ x * cv_scale s + cv_shift s ≤ 255)
          ∧ (∀ i j : ℕ, i < s.length → j < (s.getD i []).length →
              (s.getD i []).getD j 0 = listMax (flat2 s) →
              ((cv2_normalize_minmax_8u s).getD i []).getD j 0 = 255)) := by
  intro s
  constructor
  · intro row hrow z hz
    rw [cv2_normalize_minmax_8u, List.mem_map] at hrow
    obtain ⟨r, _, rfl⟩ := hrow
    rw [List.mem_map] at hz
    obtain ⟨x, _, rfl⟩ := hz
    exact ⟨le_max_left 0 _, max_le (by norm_num) (min_le_left 255 _)⟩
  · intro hlt
    have hne : listMax (flat2 s) - listMin (flat2 s) ≠ 0 := by
      intro h
      rw [sub_eq_zero] at h
      exact absurd (h ▸ hlt) (lt_irrefl _)
    have hmax255 : listMax (flat2 s) * cv_scale s + cv_shift s = 255 := by
      rw [cv_shift, cv_scale, if_pos hlt]
      field_simp
      ring
    constructor
    · intro x hx
      have h1 : listMin (flat2 s) ≤ x := listMin_le _ _ hx
      have h2 : x ≤ listMax (flat2 s) := le_listMax _ _ hx
      rw [cv_shift, cv_scale, if_pos hlt]
      have hpos : 0 < listMax (flat2 s) - listMin (flat2 s) := by
        exact sub_pos.2 hlt
      have hform : x * (255 / (listMax (flat2 s) - listMin (flat2 s))) +
          (0 - listMin (flat2 s) * (255 / (listMax (flat2 s) - listMin (flat2 s)))) =
          (x - listMin (flat2 s)) * 255 / (listMax (flat2 s) - listMin (flat2 s)) := by
        ring
      rw [hform]
      constructor
      · apply div_nonneg
        · apply mul_nonneg
          · exact sub_nonneg.2 h1
          · norm_num
        · exact le_of_lt hpos
      · rw [div_le_iff₀ hpos]
        nlinarith
    · intro i j hi hj hmax
      rw [cv2_normalize_minmax_8u]
      rw [getD_map_of_lt _ s i [] _ hi]
      rw [getD_map_of_lt _ _ j 0 _ hj]
      rw [hmax, hmax255]
      decide

/-- Witness for C9 amended on the slice [[0, 255]]: the maximum voxel 255
maps to 255 and its scaled value stays in range. -/
theorem minmax_normalization_range_amended_witness :
    ((cv2_normalize_minmax_8u [[(0 : ℚ), 255]]).getD 0 []).getD 1 0 = 255
    ∧ (0 : ℚ) ≤ 255 * cv_scale [[(0 : ℚ), 255]] + cv_shift [[(0 : ℚ), 255]] := by
  have h := minmax_normalization_range_amended [[(0 : ℚ), 255]]
  have hlt : listMin (flat2 [[(0 : ℚ), 255]]) < listMax (flat2 [[(0 : ℚ), 255]]) := by
    norm_num [flat2, listMin, listMax]
  refine ⟨(h.2 hlt).2 0 1 (by decide) (by decide) ?_, ?_⟩
  · norm_num [flat2, listMax]
  · exact ((h.2 hlt).1 255 (by norm_num [flat2])).1

end MedImageUtils
